import Mathlib

/-!
Shallow embedding of the transcription pipeline of the
`speach_text_analyse` repository, with theorems checking the
natural-language specification against the code.

Text is embedded as `List Char` (named `Str` below); Python string
operations used by the source are re-implemented faithfully on that type.
-/

namespace SpeachText

/-- Text values: Python `str` embedded as a list of characters. -/
abbrev Str := List Char

/-- Python whitespace characters as matched by `str.strip`, `str.split()`
and the regex class `\s` (ASCII range, which is all the source uses). -/
def isSpace (c : Char) : Bool :=
  c = ' ' || c = '\t' || c = '\n' || c = '\x0d' || c = '\x0b' || c = '\x0c'

/-- Word characters for the regex boundary `\b` (class `\w`). -/
def isWordChar (c : Char) : Bool :=
  c.isAlphanum || c = '_'

/-- Join a list of texts with a separator, as Python sep-join of parts. -/
def joinSep (sep : Str) : List Str → Str
  | [] => []
  | [x] => x
  | x :: xs => x ++ sep ++ joinSep sep xs

/-- The paragraph separator `"\n\n"` used throughout the pipeline. -/
def paraSep : Str := ['\n', '\n']

/-- Joining with the paragraph separator `"\n\n"`. -/
def joinParas (parts : List Str) : Str := joinSep paraSep parts

/-- Helper for `splitParas`: scan the text, flushing the (reversed)
current piece each time the two-character separator `"\n\n"` is seen
(leftmost, non-overlapping). -/
def splitParasAux : Str → Str → List Str
  | [], cur => [cur.reverse]
  | [c], cur => [(c :: cur).reverse]
  | c1 :: c2 :: rest, cur =>
    if c1 = '\n' ∧ c2 = '\n' then cur.reverse :: splitParasAux rest []
    else splitParasAux (c2 :: rest) (c1 :: cur)

/-- Python `text.split("\n\n")`: leftmost non-overlapping occurrences of
the separator split the text; the empty text yields `[""]`. -/
def splitParas (s : Str) : List Str := splitParasAux s []

/-- Python `str.strip()`: drop leading and trailing whitespace. -/
def strip (s : Str) : Str :=
  ((s.dropWhile isSpace).reverse.dropWhile isSpace).reverse

/-- Helper for `collapseWs`: the flag records whether the previous
character was whitespace (so a run contributes one space only). -/
def collapseWsAux : Str → Bool → Str
  | [], _ => []
  | c :: rest, inRun =>
    if isSpace c then
      if inRun then collapseWsAux rest true
      else ' ' :: collapseWsAux rest true
    else c :: collapseWsAux rest false

/-- Python `re.sub(r"\s+", " ", text)`: every maximal whitespace run
becomes a single space. -/
def collapseWs (s : Str) : Str := collapseWsAux s false

/-- Sum of the lengths of a list of texts. -/
def sumLens (l : List Str) : Nat := (l.map List.length).sum

/-- Python `enumerate` starting at `i`. -/
def enumFrom (i : Nat) : List α → List (Nat × α)
  | [] => []
  | x :: xs => (i, x) :: enumFrom (i + 1) xs

/-!  ## ChunkSizer (`media_chunker.py`, `AudioChunker.split`, step 2)

The byte rate of the normalized 16 kHz 16-bit mono format, and the
segment-duration formula `math.floor((target_bytes / bytes_per_sec) * 0.95)`
(modelled in exact rational arithmetic). -/

/-- Constant `bytes_per_sec = 32000` from `AudioChunker.split`. -/
def bytesPerSec : Nat := 32000

/-- Byte budget `target_bytes = chunk_size_mb * 1024 * 1024`. -/
def targetBytes (chunk_size_mb : Nat) : Nat := chunk_size_mb * 1024 * 1024

/-- Segment duration in whole seconds:
`math.floor((target_bytes / bytes_per_sec) * 0.95)`, with the real
product expressed exactly as `(B * 95) / (R * 100)` in integer floor
division. -/
def segmentTime (chunk_size_mb : Nat) : Nat :=
  (targetBytes chunk_size_mb * 95) / (bytesPerSec * 100)

/-!  ## Media-type detection (`media_converter.py`,
`FFmpegMediaConverter.detect_media_type`) -/

/-- The media kind enum from `entities.py`. -/
inductive MediaType where
  | audio
  | video
  deriving DecidableEq, Repr

/-- One entry of the `streams` list returned by `ffmpeg.probe`. -/
structure StreamInfo where
  codecType : Str
  deriving DecidableEq, Repr

/-- Outcome of `ffmpeg.probe`: a stream list, or an `ffmpeg.Error`
carrying its diagnostic text. -/
inductive ProbeResult where
  | success (streams : List StreamInfo)
  | failure (msg : Str)
  deriving DecidableEq, Repr

/-- Errors `detect_media_type` can raise: only `FileNotFoundError`. -/
inductive DetectErr where
  | notFound
  deriving DecidableEq, Repr

/-- The stream loop of `detect_media_type`: return VIDEO on the first
stream whose `codec_type` is `"video"`, else AUDIO. -/
def scanStreams : List StreamInfo → MediaType
  | [] => .audio
  | s :: rest =>
    if s.codecType = ['v', 'i', 'd', 'e', 'o'] then .video else scanStreams rest

/-- `FFmpegMediaConverter.detect_media_type`: raise `FileNotFoundError`
when the path is missing; probe the file; on `ffmpeg.Error` swallow the
error and return AUDIO; otherwise scan the streams. -/
def detectMediaType (inputExists : Bool) (probe : ProbeResult) :
    Except DetectErr MediaType :=
  if !inputExists then .error .notFound
  else
    match probe with
    | .failure _ => .ok .audio
    | .success streams => .ok (scanStreams streams)

/-!  ## TextChunker (`output_normaliser.py`, `Normaliser._create_smart_chunks`,
and `services.py`, `TranscriptionService._text_splitter`) -/

/-- Helper for `wordsOf`: accumulate the current (reversed) word. -/
def wordsAux : Str → Str → List Str
  | [], cur => if cur.isEmpty then [] else [cur.reverse]
  | c :: rest, cur =>
    if isSpace c then
      if cur.isEmpty then wordsAux rest []
      else cur.reverse :: wordsAux rest []
    else wordsAux rest (c :: cur)

/-- Python `text.split()` with no argument: whitespace-run splitting,
dropping empty pieces (used to model `textwrap.wrap`'s word splitting). -/
def wordsOf (s : Str) : List Str := wordsAux s []

/-- Greedy line filling for `textwrap.wrap(..., break_long_words=False)`:
add the next word to the line when it fits in the width (a space is
inserted between words), else start a new line; a single word longer
than the width stays alone on its line. -/
def fillAux (width : Nat) : List Str → Str → List Str
  | [], line => [line]
  | w :: ws, line =>
    if line.length + 1 + w.length ≤ width then
      fillAux width ws (line ++ ' ' :: w)
    else line :: fillAux width ws w

/-- Model of Python `textwrap.wrap(paragraph, width, break_long_words=False)`:
split into whitespace-separated words and refill greedily; all-whitespace
input yields no lines. -/
def wrapGreedy (width : Nat) (p : Str) : List Str :=
  match wordsOf p with
  | [] => []
  | w :: ws => fillAux width ws w

/-- The paragraph loop of `Normaliser._create_smart_chunks`, carrying
the pending paragraph buffer `cur` (in order) and its accumulated length
`curLen` (which counts paragraph characters only, not separators):
* a paragraph longer than `M` flushes the buffer and is force-wrapped;
* a paragraph with `curLen + len < M` joins the buffer;
* otherwise the buffer is flushed (joined with `"\n\n"`) and the
  paragraph starts a new buffer. -/
def smartChunksAux (M : Nat) : List Str → List Str → Nat → List Str
  | [], cur, _ => if cur.isEmpty then [] else [joinParas cur]
  | p :: ps, cur, curLen =>
    if M < p.length then
      (if cur.isEmpty then [] else [joinParas cur]) ++
        wrapGreedy M p ++ smartChunksAux M ps [] 0
    else if curLen + p.length < M then
      smartChunksAux M ps (cur ++ [p]) (curLen + p.length)
    else
      joinParas cur :: smartChunksAux M ps [p] p.length

/-- `Normaliser._create_smart_chunks(text)` with the chunk budget `M`
(the instance uses `DEFAULT_CHUNK_SIZE = 20000 * 4`). -/
def smartChunks (M : Nat) (text : Str) : List Str :=
  smartChunksAux M (splitParas text) [] 0

/-- The configured `Normaliser.DEFAULT_CHUNK_SIZE = 20000 * 4`. -/
def DEFAULT_CHUNK_SIZE : Nat := 20000 * 4

/-- The paragraph loop of `TranscriptionService._text_splitter`, whose
buffer is a single string accumulating `para + "\n\n"`; a flush appends
`current_chunk.strip()`; the trailing buffer is flushed when non-empty. -/
def textSplitterAux (M : Nat) : List Str → Str → List Str
  | [], cur => if cur.isEmpty then [] else [strip cur]
  | p :: ps, cur =>
    if cur.length + p.length < M then
      textSplitterAux M ps (cur ++ p ++ paraSep)
    else
      strip cur :: textSplitterAux M ps (p ++ paraSep)

/-- `TranscriptionService._text_splitter(text, chunk_size)` (storage
variant of the chunker; the orchestrator calls it with the default
`chunk_size = 1000`). -/
def textSplitter (M : Nat) (text : Str) : List Str :=
  textSplitterAux M (splitParas text) []

/-!  ## Normaliser (`output_normaliser.py`, `Normaliser._gemini_api_call`
and `Normaliser.post_process`)

The Gemini API is abstracted as an oracle mapping the attempt number to
`some text` (a structurally valid response) or `none` (any transport
error, empty candidate list, or empty content — all raised and caught
identically by the retry loop). -/

/-- The retry loop of `_gemini_api_call`, instrumented: returns the
result, the list of sleep durations (whole seconds, `2.0 ** (attempt-1)`)
performed between attempts, and the number of attempts made. `a` is the
current attempt number, `fuel` the attempts remaining
(`max_retries = 3`, so the entry point uses `a = 1`, `fuel = 3`); when
the final attempt fails the exception is re-raised (`.error`). -/
def geminiGo (api : Nat → Option Str) : Nat → Nat → Except Unit Str × List Nat × Nat
  | _, 0 => (.error (), [], 0)
  | a, fuel + 1 =>
    match api a with
    | some t => (.ok t, [], 1)
    | none =>
      if fuel = 0 then (.error (), [], 1)
      else
        let r := geminiGo api (a + 1) fuel
        (r.1, 2 ^ (a - 1) :: r.2.1, r.2.2 + 1)

/-- `Normaliser._gemini_api_call` with `max_retries = 3` and
`backoff_factor = 2.0`. -/
def geminiApiCall (api : Nat → Option Str) : Except Unit Str × List Nat × Nat :=
  geminiGo api 1 3

/-- Error raised by `Normaliser.post_process` itself: the `ValueError`
on null input. -/
inductive NormErr where
  | invalidInput
  deriving DecidableEq, Repr

/-- The chunk loop of `post_process`: for each chunk (with its index)
append the API result, or the raw chunk itself when the call failed
after exhausting retries. -/
def postProcessLoop (api : Nat → Nat → Option Str) :
    List (Nat × Str) → List Str → List Str
  | [], acc => acc
  | (i, c) :: rest, acc =>
    match (geminiApiCall (api i)).1 with
    | .ok t => postProcessLoop api rest (acc ++ [t])
    | .error _ => postProcessLoop api rest (acc ++ [c])

/-- `Normaliser.post_process(row_transcription)`: `None` input raises
`ValueError` (the empty string is NOT rejected — only `is None` is
checked); otherwise split into smart chunks, normalize each with
per-chunk fallback, and re-join with `"\n\n"`. -/
def postProcess (rowTranscription : Option Str)
    (api : Nat → Nat → Option Str) : Except NormErr Str :=
  match rowTranscription with
  | none => .error .invalidInput
  | some t =>
    let chunks := smartChunks DEFAULT_CHUNK_SIZE t
    .ok (joinParas (postProcessLoop api (enumFrom 0 chunks) []))

/-!  ## Transcript Formatter (`opanai_transcriber.py`,
`OpanAITranscriber.clean_text` and `OpanAITranscriber.format_diarization`) -/

/-- Case-insensitive pattern match at the start of `s` (the filler
patterns are lowercase; `re.IGNORECASE` lowers the text side). -/
def matchesLowerAt (pat s : Str) : Bool :=
  (s.take pat.length).map Char.toLower == pat

/-- Regex `\b` seen from the left of a match: start of text or a
non-word character before the match. -/
def boundaryBefore : Option Char → Bool
  | none => true
  | some c => !isWordChar c

/-- Regex `\b` seen from the right of a match: end of text or a
non-word character after it. -/
def boundaryAfter : Str → Bool
  | [] => true
  | c :: _ => !isWordChar c

/-- Scanner for `re.sub(r"\b<pat>\b", "", text, flags=IGNORECASE)`:
left-to-right, non-overlapping; a matched occurrence (with word
boundaries on both sides, judged on the original text) is dropped from
the output. `skip` counts match characters still to swallow; `prev` is
the previously scanned original character (for the left boundary). -/
def swwGo (pat : Str) : Nat → Option Char → Str → Str
  | _, _, [] => []
  | skip + 1, _, c :: rest => swwGo pat skip (some c) rest
  | 0, prev, c :: rest =>
    if boundaryBefore prev && matchesLowerAt pat (c :: rest) &&
        boundaryAfter ((c :: rest).drop pat.length) then
      swwGo pat (pat.length - 1) (some c) rest
    else c :: swwGo pat 0 (some c) rest

/-- Whole-word, case-insensitive removal of a (non-empty) pattern. -/
def subWholeWord (pat : Str) (s : Str) : Str := swwGo pat 0 none s

/-- The `FILLERS` list of `OpanAITranscriber`:
`\buh\b, \bum\b, \bah\b, \bso\b, \byou know\b`. -/
def FILLERS : List Str :=
  [['u', 'h'], ['u', 'm'], ['a', 'h'], ['s', 'o'],
   ['y', 'o', 'u', ' ', 'k', 'n', 'o', 'w']]

/-- `OpanAITranscriber.clean_text`: strip, remove each filler in turn,
collapse whitespace runs to single spaces, strip again. -/
def cleanText (text : Str) : Str :=
  strip (collapseWs (FILLERS.foldl (fun t pat => subWholeWord pat t) (strip text)))

/-- A diarization segment as consumed by `format_diarization`
(attributes `.speaker` and `.text`). -/
structure DiarSegment where
  speaker : Str
  text : Str
  deriving DecidableEq, Repr

/-- Python rendering of the speaker slot of an f-string
(`None` prints as `"None"`; in reachable states it is always set). -/
def showSpk : Option Str → Str
  | none => ['N', 'o', 'n', 'e']
  | some s => s

/-- Python `" ".join(buffer)`. -/
def joinSpace (l : List Str) : Str := joinSep [' '] l

/-- The loop of `format_diarization`, producing the `output` list:
skip segments whose cleaned text is empty; on a speaker change flush the
buffer (when non-empty) as `f"{current_speaker}:\n" + " ".join(buffer) + "\n"`;
the final flush omits the trailing newline. -/
def formatDiarizationAux : List DiarSegment → Option Str → List Str → List Str
  | [], curSpk, buffer =>
    if buffer.isEmpty then []
    else [showSpk curSpk ++ ':' :: '\n' :: joinSpace buffer]
  | seg :: rest, curSpk, buffer =>
    if (cleanText seg.text).isEmpty then formatDiarizationAux rest curSpk buffer
    else if curSpk ≠ some seg.speaker then
      (if buffer.isEmpty then []
       else [showSpk curSpk ++ ':' :: '\n' :: joinSpace buffer ++ ['\n']]) ++
        formatDiarizationAux rest (some seg.speaker) [cleanText seg.text]
    else formatDiarizationAux rest curSpk (buffer ++ [cleanText seg.text])

/-- `OpanAITranscriber.format_diarization`: run the loop from the
initial state (`current_speaker = None`, empty buffer) and join the
output list with `"\n"`. -/
def formatDiarization (segments : List DiarSegment) : Str :=
  joinSep ['\n'] (formatDiarizationAux segments none [])

/-- The cleaned, non-empty (speaker, text) sequence: segments in order
with their cleaned text, those cleaning to empty dropped (hence a
dropped segment cannot break a same-speaker run). -/
def cleanedSeq (segments : List DiarSegment) : List (Str × Str) :=
  (segments.map (fun s => (s.speaker, cleanText s.text))).filter
    (fun p => !p.2.isEmpty)

/-- Declarative grouping of consecutive same-speaker entries,
collecting their texts. -/
def specGroups : List (Str × Str) → List (Str × List Str)
  | [] => []
  | (s, t) :: rest =>
    (s, t :: (rest.takeWhile (fun p => p.1 == s)).map Prod.snd) ::
      specGroups (rest.dropWhile (fun p => p.1 == s))
termination_by l => l.length
decreasing_by
  simp only [List.length_cons]
  exact Nat.lt_succ_of_le (List.dropWhile_sublist _).length_le

/-- Render one speaker paragraph, without a trailing newline:
`"<speaker>:\n<text1 text2 ...>"`. -/
def renderG (g : Str × List Str) : Str := g.1 ++ ':' :: '\n' :: joinSpace g.2

/-- The groups produced from an in-flight loop state: current speaker
`spk` with non-empty buffer `buf`, followed by the rest of the input. -/
def groupsFrom (spk : Str) (buf : List Str) : List DiarSegment → List (Str × List Str)
  | [] => [(spk, buf)]
  | seg :: rest =>
    if (cleanText seg.text).isEmpty then groupsFrom spk buf rest
    else if seg.speaker == spk then
      groupsFrom spk (buf ++ [cleanText seg.text]) rest
    else (spk, buf) :: groupsFrom seg.speaker [cleanText seg.text] rest

/-- Render a group list the way the loop emits it: every paragraph but
the last carries a trailing newline. -/
def withNl : List (Str × List Str) → List Str
  | [] => []
  | g :: rest =>
    match rest with
    | [] => [renderG g]
    | _ :: _ => (renderG g ++ ['\n']) :: withNl rest

/-!  ## AudioSegmenter (`media_chunker.py`, `AudioChunker.split`)

The filesystem (output directory) is a list of file names; the external
ffmpeg segmenter is abstracted as a deterministic outcome of the run:
either a failure with its diagnostic stderr, or success producing `k`
segments named by the zero-padded pattern `{stem}_%03d.wav`. -/

/-- The `%03d` ordinal used in the ffmpeg output pattern: at least three
digits, zero-padded (wider numbers print all their digits). -/
def pad3 (n : Nat) : Str :=
  if n < 1000 then
    [Nat.digitChar (n / 100), Nat.digitChar (n / 10 % 10), Nat.digitChar (n % 10)]
  else Nat.toDigits 10 n

/-- The name of segment `i`: `f"{file_name}_%03d.wav"` instantiated. -/
def segName (stem : Str) (i : Nat) : Str :=
  stem ++ '_' :: (pad3 i ++ ['.', 'w', 'a', 'v'])

/-- The glob pattern `f"{file_name}_*.wav"` used both to clear stale
segments and to collect produced ones. -/
def matchesPattern (stem : Str) (f : Str) : Bool :=
  (stem ++ ['_']).isPrefixOf f && ['.', 'w', 'a', 'v'].isSuffixOf f

/-- Python string `<` (strict lexicographic order on code points). -/
def lexLt : Str → Str → Bool
  | [], [] => false
  | [], _ :: _ => true
  | _ :: _, [] => false
  | a :: as, b :: bs =>
    if a.toNat < b.toNat then true
    else if b.toNat < a.toNat then false
    else lexLt as bs

/-- Insert into a lexicographically sorted list (ascending). -/
def insertSorted (x : Str) : List Str → List Str
  | [] => [x]
  | y :: ys => if lexLt y x then y :: insertSorted x ys else x :: y :: ys

/-- Python `sorted` on a list of strings (insertion sort; ascending
lexicographic order). -/
def sortStrs (l : List Str) : List Str := l.foldr insertSorted []

/-- Outcome of the external `ffmpeg -f segment` run on a given input
and budget: non-zero exit with diagnostic output, or success producing
`k` chronological segments. -/
inductive ToolOutcome where
  | ok (k : Nat)
  | fail (stderr : Str)
  deriving DecidableEq, Repr

/-- Errors `AudioChunker.split` raises: `FileNotFoundError` for a
missing input, and `RuntimeError` (the `ConversionFailure` of the spec)
wrapping a message. -/
inductive SplitErr where
  | notFound
  | conversionFailure (msg : Str)
  deriving DecidableEq, Repr

/-- Message of the non-zero-exit error, `f"Chunking failed: {stderr}"`. -/
def chunkingFailedMsg : Str := "Chunking failed: ".toList

/-- Message of the zero-files error. -/
def noChunksMsg : Str := "FFmpeg ran but produced no chunks.".toList

/-- A chunk record of the persistence layer (`TranscriptionChunk` of
`entities.py`): owning transcription, zero-based index, text, optional
embedding vector (always null in this core). -/
structure ChunkRecord where
  transcriptionId : Nat
  chunkIndex : Nat
  textContent : Str
  embedding : Option (List Int)
  deriving DecidableEq, Repr

/-- State threaded through `split`: the output directory's files and
the persistence records (which `split` never touches). -/
structure PipeState where
  files : List Str
  records : List ChunkRecord
  deriving DecidableEq, Repr

/-- `AudioChunker.split`: raise `FileNotFoundError` if the input is
missing; delete every existing file matching `{stem}_*.wav`; run the
segmenter; on non-zero exit raise `RuntimeError` wrapping stderr; else
collect the files matching the pattern, sorted; raise `RuntimeError` if
none were produced; otherwise return the sorted list. -/
def runSplit (stem : Str) (inputExists : Bool) (tool : ToolOutcome)
    (st : PipeState) : Except SplitErr (List Str) × PipeState :=
  if !inputExists then (.error .notFound, st)
  else
    let fs1 := st.files.filter (fun f => !matchesPattern stem f)
    match tool with
    | .fail stderr =>
      (.error (.conversionFailure (chunkingFailedMsg ++ stderr)), ⟨fs1, st.records⟩)
    | .ok k =>
      let fs2 := fs1 ++ (List.range k).map (segName stem)
      let chunks := sortStrs (fs2.filter (matchesPattern stem))
      if chunks.isEmpty then
        (.error (.conversionFailure noChunksMsg), ⟨fs2, st.records⟩)
      else (.ok chunks, ⟨fs2, st.records⟩)

/-!  ## Orchestrator persistence steps (`services.py`,
`TranscriptionService.process_file`, steps 3 and 5)

The `MediaRepository` module itself is not part of the sources at hand
(only its callers are), so its chunk-level CRUD operations are modelled
from the spec. -/

/-- Modelled from the spec: `MediaRepository.delete_all_chunks` —
"delete all existing ChunkRecords for the transcription". -/
def delete_all_chunks (tid : Nat) (db : List ChunkRecord) : List ChunkRecord :=
  db.filter (fun c => c.transcriptionId != tid)

/-- Modelled from the spec: `MediaRepository.create_chunk` — append one
chunk for the transcription with the given index and text (embedding
vector null). -/
def create_chunk (tid idx : Nat) (text : Str) (db : List ChunkRecord) :
    List ChunkRecord :=
  db ++ [⟨tid, idx, text, none⟩]

/-- Modelled from the spec: `MediaRepository.save_chunks` — bulk-insert
the prepared `{index, text, vector}` rows for the transcription. -/
def save_chunks (tid : Nat) (rows : List (Nat × Str × Option (List Int)))
    (db : List ChunkRecord) : List ChunkRecord :=
  db ++ rows.map (fun r => ⟨tid, r.1, r.2.1, r.2.2⟩)

/-- The chunks of one transcription visible in a store state. -/
def chunksOf (tid : Nat) (db : List ChunkRecord) : List ChunkRecord :=
  db.filter (fun c => c.transcriptionId == tid)

/-- An audio segment on disk, as seen by the transcription loop: its
file size in bytes (for the `os.path.getsize` guard) and its content
(consumed by the transcriber oracle). -/
structure AudioSeg where
  sizeBytes : Nat
  content : Str
  deriving DecidableEq, Repr

/-- Step 3 of `process_file`: `for i, audio_chunk in enumerate(...)`,
skipping segments smaller than `1024 * 5` bytes, otherwise persisting
the transcript as the chunk with index `i` under the shell
transcription `tid`. -/
def transcribeLoopAux (tid : Nat) (transcribe : AudioSeg → Str) :
    Nat → List AudioSeg → List ChunkRecord → List ChunkRecord
  | _, [], db => db
  | i, seg :: rest, db =>
    if seg.sizeBytes < 1024 * 5 then transcribeLoopAux tid transcribe (i + 1) rest db
    else transcribeLoopAux tid transcribe (i + 1) rest
      (create_chunk tid i (transcribe seg) db)

/-- The whole transcription loop, starting at index 0. -/
def transcribeLoop (tid : Nat) (transcribe : AudioSeg → Str)
    (segs : List AudioSeg) (db : List ChunkRecord) : List ChunkRecord :=
  transcribeLoopAux tid transcribe 0 segs db

/-- Closed form of the records the loop appends: one chunk per
non-skipped segment, indexed by its chronological position. -/
def rawChunksFrom (tid : Nat) (transcribe : AudioSeg → Str) :
    Nat → List AudioSeg → List ChunkRecord
  | _, [] => []
  | i, seg :: rest =>
    if seg.sizeBytes < 1024 * 5 then rawChunksFrom tid transcribe (i + 1) rest
    else ⟨tid, i, transcribe seg, none⟩ :: rawChunksFrom tid transcribe (i + 1) rest

/-- Step 5 of `process_file` (C): the clean rows prepared for bulk
insert — `{"index": i, "text": segment, "vector": None}` over the
enumerated storage split of the normalized text. -/
def cleanChunkRows (normText : Str) : List (Nat × Str × Option (List Int)) :=
  (enumFrom 0 (textSplitter 1000 normText)).map (fun p => (p.1, p.2, none))

/-- The clean-generation chunk records inserted by the swap. -/
def insertedClean (tid : Nat) (normText : Str) : List ChunkRecord :=
  (cleanChunkRows normText).map (fun r => ⟨tid, r.1, r.2.1, r.2.2⟩)

/-- Step 5 of `process_file`: the chunk-store states at each
observation point of the swap — before, after `delete_all_chunks`,
after `save_chunks`. -/
def swapTrace (tid : Nat) (normText : Str) (db : List ChunkRecord) :
    List (List ChunkRecord) :=
  [db, delete_all_chunks tid db,
   save_chunks tid (cleanChunkRows normText) (delete_all_chunks tid db)]

/-!  ## Theorems -/

theorem scanStreams_eq_video_iff (streams : List StreamInfo) :
    scanStreams streams = .video ↔
      ∃ s ∈ streams, s.codecType = ['v', 'i', 'd', 'e', 'o'] := by
  induction streams with
  | nil => simp [scanStreams]
  | cons s rest ih =>
    by_cases h : s.codecType = ['v', 'i', 'd', 'e', 'o']
    · simp [scanStreams, h]
    · simp only [scanStreams, if_neg h, ih]
      constructor
      · rintro ⟨t, ht, hc⟩
        exact ⟨t, List.mem_cons_of_mem _ ht, hc⟩
      · rintro ⟨t, ht, hc⟩
        rcases List.mem_cons.mp ht with rfl | ht
        · exact absurd hc h
        · exact ⟨t, ht, hc⟩

/-- C10: for every existing input path `detect_media_type` never raises a
tool error: it returns VIDEO iff probing finds a stream with
`codec_type = "video"`, AUDIO when none is found, AUDIO (swallowing the
error) when probing fails, and it raises `NotFound` exactly when the
path does not exist. -/
theorem detect_media_type_spec (inputExists : Bool) (probe : ProbeResult) :
    (detectMediaType inputExists probe = .error .notFound ↔ inputExists = false) ∧
    (inputExists = true →
      (∀ msg, probe = .failure msg → detectMediaType inputExists probe = .ok .audio) ∧
      (∀ streams, probe = .success streams →
        (detectMediaType inputExists probe = .ok .video ↔
          ∃ s ∈ streams, s.codecType = ['v', 'i', 'd', 'e', 'o']) ∧
        ((∀ s ∈ streams, s.codecType ≠ ['v', 'i', 'd', 'e', 'o']) →
          detectMediaType inputExists probe = .ok .audio))) := by
  constructor
  · cases inputExists with
    | false => simp [detectMediaType]
    | true =>
      simp only [detectMediaType, Bool.not_true, Bool.false_eq_true, if_false]
      cases probe <;> simp
  · rintro rfl
    refine ⟨fun msg hm => by simp [detectMediaType, hm], fun streams hs => ?_⟩
    subst hs
    constructor
    · simpa [detectMediaType] using scanStreams_eq_video_iff streams
    · intro hall
      have : scanStreams streams ≠ .video := by
        intro hv
        rcases (scanStreams_eq_video_iff streams).mp hv with ⟨s, hs, hc⟩
        exact hall s hs hc
      simp only [detectMediaType, Bool.not_true, Bool.false_eq_true, if_false]
      cases h : scanStreams streams with
      | audio => rfl
      | video => exact absurd h this

/-- Witness for C10 at a concrete input: an existing file whose probe
reports one audio and one video stream is classified as VIDEO, and a
missing file raises `NotFound`. -/
theorem detect_media_type_spec_witness :
    detectMediaType true
        (.success [⟨['a', 'a', 'c']⟩, ⟨['v', 'i', 'd', 'e', 'o']⟩]) = .ok .video ∧
    detectMediaType false (.failure []) = .error .notFound := by
  constructor
  · exact ((detect_media_type_spec true
      (.success [⟨['a', 'a', 'c']⟩, ⟨['v', 'i', 'd', 'e', 'o']⟩])).2 rfl).2 _ rfl
      |>.1.mpr ⟨⟨['v', 'i', 'd', 'e', 'o']⟩, by decide, rfl⟩
  · exact (detect_media_type_spec false (.failure [])).1.mpr rfl

theorem geminiRetry (o : Nat → Option Str) :
    (geminiApiCall o).2.2 ≤ 3 ∧
    (geminiApiCall o).2.1 =
      (List.range ((geminiApiCall o).2.2 - 1)).map (fun k => 2 ^ k) ∧
    ((geminiApiCall o).1 = .error () ↔ o 1 = none ∧ o 2 = none ∧ o 3 = none) ∧
    (∀ t, (geminiApiCall o).1 = .ok t → ∃ a, 1 ≤ a ∧ a ≤ 3 ∧ o a = some t) := by
  cases h1 : o 1 with
  | some t =>
    refine ⟨?_, ?_, ?_, ?_⟩ <;>
      simp [geminiApiCall, geminiGo, h1, List.range_succ]
    exact ⟨1, by omega, by omega, h1⟩
  | none =>
    cases h2 : o 2 with
    | some t =>
      refine ⟨?_, ?_, ?_, ?_⟩ <;>
        simp [geminiApiCall, geminiGo, h1, h2, List.range_succ]
      exact ⟨2, by omega, by omega, h2⟩
    | none =>
      cases h3 : o 3 with
      | some t =>
        refine ⟨?_, ?_, ?_, ?_⟩ <;>
          simp [geminiApiCall, geminiGo, h1, h2, h3, List.range_succ]
        exact ⟨3, by omega, by omega, h3⟩
      | none =>
        refine ⟨?_, ?_, ?_, ?_⟩ <;>
          simp [geminiApiCall, geminiGo, h1, h2, h3, List.range_succ]

theorem postProcessLoop_eq (api : Nat → Nat → Option Str) :
    ∀ (l : List (Nat × Str)) (acc : List Str),
      postProcessLoop api l acc =
        acc ++ l.map (fun p =>
          match (geminiApiCall (api p.1)).1 with
          | .ok t => t
          | .error _ => p.2)
  | [], acc => by simp [postProcessLoop]
  | (i, c) :: rest, acc => by
    rw [postProcessLoop]
    cases h : (geminiApiCall (api i)).1 with
    | ok t =>
      have ih := postProcessLoop_eq api rest (acc ++ [t])
      simp [ih, h]
    | error e =>
      have ih := postProcessLoop_eq api rest (acc ++ [c])
      simp [ih, h]

theorem length_enumFrom (i : Nat) (l : List α) : (enumFrom i l).length = l.length := by
  induction l generalizing i with
  | nil => rfl
  | cons x xs ih => simp [enumFrom, ih]

/-- C3: for every non-null input, each chunk is attempted at most 3
times, the sleeps between attempts are exactly `2^(attempt-1)` seconds,
a chunk whose retries are exhausted (all three oracle calls fail)
contributes its original raw text, and the final result is the
blank-line join of exactly one output per input chunk in original chunk
order (no drops, no reordering). -/
theorem normaliser_retry_and_merge (api : Nat → Nat → Option Str) (t : Str) :
    postProcess (some t) api =
      .ok (joinParas ((enumFrom 0 (smartChunks DEFAULT_CHUNK_SIZE t)).map (fun p =>
        match (geminiApiCall (api p.1)).1 with
        | .ok s => s
        | .error _ => p.2))) ∧
    ((enumFrom 0 (smartChunks DEFAULT_CHUNK_SIZE t)).map (fun p =>
        match (geminiApiCall (api p.1)).1 with
        | .ok s => s
        | .error _ => p.2)).length = (smartChunks DEFAULT_CHUNK_SIZE t).length ∧
    (∀ i, (geminiApiCall (api i)).2.2 ≤ 3) ∧
    (∀ i, (geminiApiCall (api i)).2.1 =
      (List.range ((geminiApiCall (api i)).2.2 - 1)).map (fun k => 2 ^ k)) ∧
    (∀ i, (geminiApiCall (api i)).1 = .error () ↔
      api i 1 = none ∧ api i 2 = none ∧ api i 3 = none) ∧
    (∀ i s, (geminiApiCall (api i)).1 = .ok s →
      ∃ a, 1 ≤ a ∧ a ≤ 3 ∧ api i a = some s) := by
  refine ⟨?_, ?_, fun i => (geminiRetry (api i)).1,
    fun i => (geminiRetry (api i)).2.1,
    fun i => (geminiRetry (api i)).2.2.1,
    fun i => (geminiRetry (api i)).2.2.2⟩
  · rw [postProcess, postProcessLoop_eq]
    simp
  · rw [List.length_map, length_enumFrom]

/-- C9 counterexample: the empty string is NOT rejected by
`post_process` — with an always-failing generation oracle it is
processed as a single empty chunk and returns the empty result rather
than raising `InvalidInput`. -/
theorem post_process_empty_not_rejected :
    postProcess (some []) (fun _ _ => none) = .ok [] ∧
    postProcess (some []) (fun _ _ => none) ≠ .error .invalidInput := by
  constructor
  · rfl
  · intro h
    rw [(rfl : postProcess (some []) (fun _ _ => none) = .ok [])] at h
    exact Except.noConfusion h

/-- C9 amended: `post_process` rejects only null input with
`InvalidInput`; empty input text is accepted and processed normally
(never raising `InvalidInput`). -/
theorem post_process_null_rejected (api : Nat → Nat → Option Str) :
    postProcess none api = .error .invalidInput ∧
    ∃ s, postProcess (some []) api = .ok s := by
  exact ⟨rfl, _, rfl⟩

theorem joinSep_cons_of_ne_nil (sep x : Str) {l : List Str} (h : l ≠ []) :
    joinSep sep (x :: l) = x ++ sep ++ joinSep sep l := by
  cases l with
  | nil => exact absurd rfl h
  | cons y ys => rfl

theorem joinSep_append (sep : Str) : ∀ (a b : List Str), a ≠ [] → b ≠ [] →
    joinSep sep (a ++ b) = joinSep sep a ++ sep ++ joinSep sep b
  | [], _, ha, _ => absurd rfl ha
  | [x], b, _, hb => by
    rw [List.singleton_append, joinSep_cons_of_ne_nil sep x hb]
    rfl
  | x :: y :: xs, b, _, hb => by
    rw [List.cons_append, joinSep_cons_of_ne_nil sep x (by simp),
      joinSep_append sep (y :: xs) b (by simp) hb,
      joinSep_cons_of_ne_nil sep x (by simp : y :: xs ≠ [])]
    simp [List.append_assoc]

theorem splitParasAux_ne_nil : ∀ (s cur : Str), splitParasAux s cur ≠ []
  | [], _ => by simp [splitParasAux]
  | [_], _ => by simp [splitParasAux]
  | c1 :: c2 :: rest, cur => by
    rw [splitParasAux]
    split
    · simp
    · exact splitParasAux_ne_nil (c2 :: rest) (c1 :: cur)

theorem joinParas_splitParasAux : ∀ (s cur : Str),
    joinParas (splitParasAux s cur) = cur.reverse ++ s
  | [], cur => by simp [splitParasAux, joinParas, joinSep]
  | [c], cur => by simp [splitParasAux, joinParas, joinSep]
  | c1 :: c2 :: rest, cur => by
    rw [splitParasAux]
    split
    · rename_i h
      obtain ⟨rfl, rfl⟩ := h
      rw [joinParas, joinSep_cons_of_ne_nil _ _ (splitParasAux_ne_nil rest [])]
      have ih := joinParas_splitParasAux rest []
      rw [joinParas] at ih
      rw [ih]
      simp [paraSep]
    · rw [joinParas_splitParasAux (c2 :: rest) (c1 :: cur)]
      simp

/-- Rejoining the paragraph split with the separator reproduces the
input text (re-joining a paragraph split of a text gives it back). -/
theorem joinParas_splitParas (s : Str) : joinParas (splitParas s) = s := by
  simpa using joinParas_splitParasAux s []

theorem joinSep_ne_nil (sep : Str) : ∀ (g : List Str), g ≠ [] → (∀ p ∈ g, p ≠ []) →
    joinSep sep g ≠ []
  | [], h, _ => absurd rfl h
  | [x], _, hp => by simpa [joinSep] using hp x (by simp)
  | x :: y :: xs, _, hp => by
    rw [joinSep_cons_of_ne_nil sep x (by simp)]
    have hx : x ≠ [] := hp x (by simp)
    cases x with
    | nil => exact absurd rfl hx
    | cons a as => simp

theorem joinSep_map_join (sep : Str) : ∀ (gs : List (List Str)), (∀ g ∈ gs, g ≠ []) →
    joinSep sep (gs.map (joinSep sep)) = joinSep sep gs.flatten
  | [], _ => rfl
  | [g], _ => by simp [joinSep]
  | g :: g' :: gs, h => by
    have hg' : ∀ x ∈ g' :: gs, x ≠ [] := fun x hx => h x (List.mem_cons_of_mem _ hx)
    have ih := joinSep_map_join sep (g' :: gs) hg'
    have hgne : g ≠ [] := h g (by simp)
    have hjne : (g' :: gs).flatten ≠ [] := by
      have hne : g' ≠ [] := h g' (by simp)
      cases g' with
      | nil => exact absurd rfl hne
      | cons a as => simp
    calc joinSep sep ((g :: g' :: gs).map (joinSep sep))
        = joinSep sep (joinSep sep g :: (g' :: gs).map (joinSep sep)) := by
          rw [List.map_cons]
      _ = joinSep sep g ++ sep ++ joinSep sep ((g' :: gs).map (joinSep sep)) :=
          joinSep_cons_of_ne_nil sep _ (by simp)
      _ = joinSep sep g ++ sep ++ joinSep sep (g' :: gs).flatten := by rw [ih]
      _ = joinSep sep (g ++ (g' :: gs).flatten) := (joinSep_append sep g _ hgne hjne).symm
      _ = joinSep sep ((g :: g' :: gs).flatten) := by
            simp [List.flatten_cons]

theorem smartChunksAux_spec (M : Nat) : ∀ (ps cur : List Str) (curLen : Nat),
    (∀ p ∈ ps, p ≠ [] ∧ p.length < M) →
    (∀ p ∈ cur, p ≠ []) →
    curLen = sumLens cur →
    curLen < M →
    ∃ gs : List (List Str),
      smartChunksAux M ps cur curLen = gs.map joinParas ∧
      gs.flatten = cur ++ ps ∧
      (∀ g ∈ gs, g ≠ [] ∧ sumLens g < M ∧ ∀ p ∈ g, p ≠ [])
  | [], cur, curLen => fun _ hcur hlen hlt => by
    cases cur with
    | nil => exact ⟨[], by simp [smartChunksAux], by simp, by simp⟩
    | cons x xs =>
      refine ⟨[x :: xs], by simp [smartChunksAux], by simp, ?_⟩
      intro g hg
      rw [List.mem_singleton] at hg
      subst hg
      exact ⟨by simp, hlen ▸ hlt, hcur⟩
  | p :: ps, cur, curLen => fun hps hcur hlen hlt => by
    obtain ⟨hpne, hplen⟩ := hps p (by simp)
    have hrest : ∀ q ∈ ps, q ≠ [] ∧ q.length < M := fun q hq => hps q (by simp [hq])
    have hnotbig : ¬ M < p.length := by omega
    by_cases hfits : curLen + p.length < M
    · obtain ⟨gs, h1, h2, h3⟩ :=
        smartChunksAux_spec M ps (cur ++ [p]) (curLen + p.length) hrest
          (by
            intro q hq
            rcases List.mem_append.mp hq with h | h
            · exact hcur q h
            · rw [List.mem_singleton.mp h]; exact hpne)
          (by simp [sumLens, hlen])
          hfits
      refine ⟨gs, ?_, ?_, h3⟩
      · rw [smartChunksAux, if_neg hnotbig, if_pos hfits]
        exact h1
      · rw [h2]
        simp
    · have hcurne : cur ≠ [] := by
        intro hnil
        subst hnil
        simp [sumLens] at hlen
        omega
      obtain ⟨gs, h1, h2, h3⟩ :=
        smartChunksAux_spec M ps [p] p.length hrest
          (by intro q hq; rw [List.mem_singleton.mp hq]; exact hpne)
          (by simp [sumLens])
          hplen
      refine ⟨cur :: gs, ?_, ?_, ?_⟩
      · rw [smartChunksAux, if_neg hnotbig, if_neg hfits, h1, List.map_cons]
      · simp [h2]
      · intro g hg
        rcases List.mem_cons.mp hg with rfl | hg
        · exact ⟨hcurne, by rw [← hlen]; exact hlt, hcur⟩
        · exact h3 g hg

/-- C4 counterexample: the storage chunker `_text_splitter` with budget
3 on the single-paragraph input `"abc"` flushes an empty buffer and
returns an EMPTY first chunk; rejoining the chunks with the paragraph
separator does not reproduce the input's paragraph sequence. -/
theorem text_chunker_empty_chunk_cex :
    textSplitter 3 ['a', 'b', 'c'] = [[], ['a', 'b', 'c']] ∧
    [] ∈ textSplitter 3 ['a', 'b', 'c'] ∧
    joinParas (textSplitter 3 ['a', 'b', 'c']) ≠ ['a', 'b', 'c'] := by
  decide

/-- C4 amended: when every paragraph of the input is non-empty and
shorter than the budget `M`, `_create_smart_chunks` returns non-empty
chunks, in source order, that partition the paragraph sequence with no
drops; rejoining the chunks with the paragraph separator reproduces the
input exactly; and each chunk's total paragraph length (separator
characters excluded — the implementation does not count them toward the
budget) stays below `M`. Without those paragraph conditions an empty
chunk can be produced, as the counterexample shows. -/
theorem smart_chunks_spec (M : Nat) (T : Str) (hM : 0 < M)
    (hp : ∀ p ∈ splitParas T, p ≠ [] ∧ p.length < M) :
    (∀ c ∈ smartChunks M T, c ≠ []) ∧
    joinParas (smartChunks M T) = T ∧
    (∃ gs : List (List Str),
      smartChunks M T = gs.map joinParas ∧
      gs.flatten = splitParas T ∧
      ∀ g ∈ gs, g ≠ [] ∧ sumLens g < M) := by
  obtain ⟨gs, h1, h2, h3⟩ :=
    smartChunksAux_spec M (splitParas T) [] 0 hp (by simp) rfl hM
  rw [List.nil_append] at h2
  have hchunks : smartChunks M T = gs.map joinParas := h1
  refine ⟨?_, ?_, gs, hchunks, h2, fun g hg => ⟨(h3 g hg).1, (h3 g hg).2.1⟩⟩
  · intro c hc
    rw [hchunks] at hc
    obtain ⟨g, hg, rfl⟩ := List.mem_map.mp hc
    exact joinSep_ne_nil paraSep g (h3 g hg).1 (h3 g hg).2.2
  · rw [hchunks]
    have hmap : gs.map joinParas = gs.map (joinSep paraSep) := rfl
    rw [joinParas, hmap, joinSep_map_join paraSep gs (fun g hg => (h3 g hg).1), h2]
    exact joinParas_splitParas T

/-- Witness for C4's amended theorem on the concrete input
`"ab\n\ncd"` with budget 8: the two paragraphs fit in one chunk and the
conclusions hold. -/
theorem smart_chunks_spec_witness :
    (0 < 8 ∧ ∀ p ∈ splitParas ['a', 'b', '\n', '\n', 'c', 'd'],
      p ≠ [] ∧ p.length < 8) ∧
    ((∀ c ∈ smartChunks 8 ['a', 'b', '\n', '\n', 'c', 'd'], c ≠ []) ∧
     joinParas (smartChunks 8 ['a', 'b', '\n', '\n', 'c', 'd']) =
       ['a', 'b', '\n', '\n', 'c', 'd'] ∧
     (∃ gs : List (List Str),
       smartChunks 8 ['a', 'b', '\n', '\n', 'c', 'd'] = gs.map joinParas ∧
       gs.flatten = splitParas ['a', 'b', '\n', '\n', 'c', 'd'] ∧
       ∀ g ∈ gs, g ≠ [] ∧ sumLens g < 8)) :=
  ⟨⟨by decide, by decide⟩, smart_chunks_spec 8 _ (by decide) (by decide)⟩

/-- C6: the segment duration equals `⌊(B / R) × 0.95⌋` in exact real
arithmetic, with `R = 32000` bytes/sec and `B = chunk_size_mb·1024·1024`;
the computation is a total (pure) function, and for every budget of at
least one megabyte the result is at least 1. -/
theorem segment_time_spec (mb : Nat) (h : 1 ≤ mb) :
    segmentTime mb =
      ⌊((targetBytes mb : ℚ) / (bytesPerSec : ℚ)) * (95 / 100 : ℚ)⌋₊ ∧
    1 ≤ segmentTime mb := by
  constructor
  · have hcast :
        ((targetBytes mb : ℚ) / (bytesPerSec : ℚ)) * (95 / 100 : ℚ) =
          ((targetBytes mb * 95 : Nat) : ℚ) / ((bytesPerSec * 100 : Nat) : ℚ) := by
      push_cast
      ring
    rw [hcast, Nat.floor_div_nat, Nat.floor_natCast]
    rfl
  · have hB : targetBytes 1 * 95 ≤ targetBytes mb * 95 := by
      have : targetBytes 1 ≤ targetBytes mb := by
        unfold targetBytes
        exact Nat.mul_le_mul_right _ (Nat.mul_le_mul_right _ h)
      exact Nat.mul_le_mul_right _ this
    have h1 : 1 ≤ targetBytes 1 * 95 / (bytesPerSec * 100) := by decide
    calc 1 ≤ targetBytes 1 * 95 / (bytesPerSec * 100) := h1
      _ ≤ targetBytes mb * 95 / (bytesPerSec * 100) :=
          Nat.div_le_div_right hB

/-- Witness for C6 at the orchestrator's actual budget of 20 MB: the
duration is 622 seconds and satisfies the floor formula. -/
theorem segment_time_spec_witness :
    1 ≤ 20 ∧
    (segmentTime 20 =
      ⌊((targetBytes 20 : ℚ) / (bytesPerSec : ℚ)) * (95 / 100 : ℚ)⌋₊ ∧
     1 ≤ segmentTime 20) :=
  ⟨by decide, segment_time_spec 20 (by decide)⟩

theorem groupsFrom_ne_nil : ∀ (segs : List DiarSegment) (spk : Str) (buf : List Str),
    groupsFrom spk buf segs ≠ []
  | [], _, _ => by simp [groupsFrom]
  | seg :: rest, spk, buf => by
    rw [groupsFrom]
    split
    · exact groupsFrom_ne_nil rest spk buf
    · split
      · exact groupsFrom_ne_nil rest spk (buf ++ [cleanText seg.text])
      · simp

theorem withNl_cons_ne_nil (g : Str × List Str) (t : List (Str × List Str)) :
    withNl (g :: t) ≠ [] := by
  cases t <;> simp [withNl]

theorem formatDiarizationAux_eq_withNl :
    ∀ (segs : List DiarSegment) (spk : Str) (buf : List Str), buf ≠ [] →
      formatDiarizationAux segs (some spk) buf = withNl (groupsFrom spk buf segs)
  | [], spk, buf => fun hbuf => by
    cases buf with
    | nil => exact absurd rfl hbuf
    | cons b bs => simp [formatDiarizationAux, groupsFrom, withNl, showSpk, renderG]
  | seg :: rest, spk, buf => fun hbuf => by
    rw [formatDiarizationAux, groupsFrom]
    by_cases hc : (cleanText seg.text).isEmpty
    · rw [if_pos hc, if_pos hc]
      exact formatDiarizationAux_eq_withNl rest spk buf hbuf
    · rw [if_neg hc, if_neg hc]
      by_cases hs : seg.speaker = spk
      · have hne : ¬ (some spk ≠ some seg.speaker) := by simp [hs]
        rw [if_neg hne,
          if_pos (show (seg.speaker == spk) = true from by simp [hs])]
        exact formatDiarizationAux_eq_withNl rest spk (buf ++ [cleanText seg.text])
          (by simp)
      · have hne : (some spk ≠ some seg.speaker) := by simp [Ne.symm hs]
        have hbufne : buf.isEmpty = false := by
          cases buf with
          | nil => exact absurd rfl hbuf
          | cons b bs => rfl
        rw [if_pos hne, hbufne,
          if_neg (show ¬ (false = true) from by simp),
          if_neg (show ¬ ((seg.speaker == spk) = true) from by simp [hs])]
        have ih := formatDiarizationAux_eq_withNl rest seg.speaker
          [cleanText seg.text] (by simp)
        cases hG : groupsFrom seg.speaker [cleanText seg.text] rest with
        | nil => exact absurd hG (groupsFrom_ne_nil rest seg.speaker _)
        | cons g gs =>
          rw [ih, hG]
          show _ ++ withNl (g :: gs) = withNl ((spk, buf) :: g :: gs)
          simp [withNl, renderG, showSpk, List.append_assoc]

theorem cleanedSeq_cons (seg : DiarSegment) (rest : List DiarSegment) :
    cleanedSeq (seg :: rest) =
      if (cleanText seg.text).isEmpty then cleanedSeq rest
      else (seg.speaker, cleanText seg.text) :: cleanedSeq rest := by
  by_cases hc : (cleanText seg.text).isEmpty
  · simp [cleanedSeq, hc]
  · simp only [cleanedSeq, List.map_cons, List.filter_cons]
    rw [if_neg hc]
    simp [hc]

theorem groupsFrom_spec : ∀ (segs : List DiarSegment) (spk : Str) (buf : List Str),
    groupsFrom spk buf segs =
      (spk, buf ++ ((cleanedSeq segs).takeWhile (fun p => p.1 == spk)).map Prod.snd) ::
        specGroups ((cleanedSeq segs).dropWhile (fun p => p.1 == spk))
  | [], spk, buf => by simp [groupsFrom, cleanedSeq, specGroups]
  | seg :: rest, spk, buf => by
    rw [groupsFrom, cleanedSeq_cons]
    by_cases hc : (cleanText seg.text).isEmpty
    · rw [if_pos hc, if_pos hc]
      exact groupsFrom_spec rest spk buf
    · rw [if_neg hc, if_neg hc]
      by_cases hs : seg.speaker = spk
      · rw [if_pos (by simp [hs])]
        rw [groupsFrom_spec rest spk (buf ++ [cleanText seg.text])]
        rw [List.takeWhile_cons, List.dropWhile_cons]
        rw [if_pos (by simp [hs]), if_pos (by simp [hs])]
        simp
      · rw [if_neg (by simp [hs])]
        rw [List.takeWhile_cons, List.dropWhile_cons]
        rw [if_neg (by simp [hs]), if_neg (by simp [hs])]
        rw [specGroups]
        rw [groupsFrom_spec rest seg.speaker [cleanText seg.text]]
        simp

theorem joinNl_withNl : ∀ (gs : List (Str × List Str)),
    joinSep ['\n'] (withNl gs) = joinParas (gs.map renderG)
  | [] => rfl
  | [g] => by simp [withNl, joinSep, joinParas]
  | g :: h :: t => by
    have ih := joinNl_withNl (h :: t)
    rw [show withNl (g :: h :: t) = (renderG g ++ ['\n']) :: withNl (h :: t) from rfl]
    rw [joinSep_cons_of_ne_nil _ _ (withNl_cons_ne_nil h t), ih]
    simp only [joinParas, List.map_cons]
    rw [joinSep_cons_of_ne_nil paraSep (renderG g)
      (by simp : renderG h :: List.map renderG t ≠ [])]
    simp [paraSep, List.append_assoc]

theorem formatDiarizationAux_initial : ∀ (segs : List DiarSegment),
    formatDiarizationAux segs none [] = withNl (specGroups (cleanedSeq segs))
  | [] => by simp [formatDiarizationAux, cleanedSeq, specGroups, withNl]
  | seg :: rest => by
    rw [formatDiarizationAux, cleanedSeq_cons]
    by_cases hc : (cleanText seg.text).isEmpty
    · rw [if_pos hc, if_pos hc]
      exact formatDiarizationAux_initial rest
    · rw [if_neg hc, if_neg hc, if_pos (by simp : (none : Option Str) ≠ some seg.speaker)]
      rw [formatDiarizationAux_eq_withNl rest seg.speaker [cleanText seg.text] (by simp)]
      rw [groupsFrom_spec rest seg.speaker [cleanText seg.text]]
      rw [specGroups]
      simp [withNl]

/-- C5 counterexample: the FINAL paragraph is emitted WITHOUT the
trailing newline — for the single segment `(A, "x")` the output is
`"A:\nx"`, not the claimed `"<speaker>:\n<merged text>\n"` form
`"A:\nx\n"`. -/
theorem format_diarization_last_newline_cex :
    formatDiarization [⟨['A'], ['x']⟩] = ['A', ':', '\n', 'x'] ∧
    formatDiarization [⟨['A'], ['x']⟩] ≠ ['A', ':', '\n', 'x', '\n'] := by
  decide

/-- C5 amended: `format_diarization` cleans each segment's text
(whole-word case-insensitive filler removal, whitespace collapse, trim),
drops segments cleaning to empty WITHOUT breaking a same-speaker run,
merges consecutive same-speaker segments into one space-joined
paragraph, and renders the paragraphs `"<speaker>:\n<merged text>"`
joined by a blank line — equivalently, every paragraph except the LAST
carries the claimed trailing newline, and paragraphs are separated by a
newline. -/
theorem format_diarization_amended (segments : List DiarSegment) :
    formatDiarization segments =
      joinParas ((specGroups (cleanedSeq segments)).map renderG) := by
  rw [formatDiarization, formatDiarizationAux_initial, joinNl_withNl]

theorem segName_matches (stem : Str) (i : Nat) :
    matchesPattern stem (segName stem i) = true := by
  rw [matchesPattern]
  have h1 : (stem ++ ['_']).isPrefixOf (segName stem i) = true := by
    rw [List.isPrefixOf_iff_prefix]
    refine ⟨pad3 i ++ ['.', 'w', 'a', 'v'], ?_⟩
    rw [segName]
    simp
  have h2 : ['.', 'w', 'a', 'v'].isSuffixOf (segName stem i) = true := by
    rw [List.isSuffixOf_iff_suffix, segName]
    have : stem ++ '_' :: (pad3 i ++ ['.', 'w', 'a', 'v']) =
        (stem ++ '_' :: pad3 i) ++ ['.', 'w', 'a', 'v'] := by simp
    rw [this]
    exact List.suffix_append _ _
  rw [h1, h2]
  rfl

theorem filter_not_filter_self (p : Str → Bool) (l : List Str) :
    (l.filter (fun f => !p f)).filter p = [] := by
  rw [List.filter_filter]
  have : (fun a => p a && !p a) = fun _ => false := by
    funext a
    exact Bool.and_not_self (p a)
  rw [this, List.filter_false]

theorem filter_not_idem (p : Str → Bool) (l : List Str) :
    (l.filter (fun f => !p f)).filter (fun f => !p f) = l.filter (fun f => !p f) := by
  rw [List.filter_filter]
  congr 1
  funext a
  cases p a <;> rfl

/-- C8: `split` raises `NotFound` iff the input path is missing; a
non-zero tool exit raises `ConversionFailure` wrapping the tool's
stderr; a run producing zero segment files raises `ConversionFailure`;
and a successful run leaves the persistence records untouched. -/
theorem split_error_spec (stem : Str) (tool : ToolOutcome) (st : PipeState) :
    (∀ ex, (runSplit stem ex tool st).1 = .error .notFound ↔ ex = false) ∧
    (∀ stderr, tool = .fail stderr →
      (runSplit stem true tool st).1 =
        .error (.conversionFailure (chunkingFailedMsg ++ stderr))) ∧
    ((runSplit stem true (.ok 0) st).1 = .error (.conversionFailure noChunksMsg)) ∧
    (∀ chunks, (runSplit stem true tool st).1 = .ok chunks →
      (runSplit stem true tool st).2.records = st.records) := by
  refine ⟨?_, ?_, ?_, ?_⟩
  · intro ex
    cases ex with
    | false => simp [runSplit]
    | true =>
      simp only [runSplit, Bool.not_true, Bool.false_eq_true, if_false]
      cases tool with
      | fail stderr => simp
      | ok k =>
        split
        · simp
        · split <;> simp
  · rintro stderr rfl
    simp [runSplit]
  · have hz : ((st.files.filter (fun f => !matchesPattern stem f) ++
        (List.range 0).map (segName stem)).filter (matchesPattern stem)) = [] := by
      simp [filter_not_filter_self]
    simp [runSplit, hz, sortStrs]
  · intro chunks _
    rw [runSplit]
    split
    · rfl
    · cases tool with
      | fail stderr => rfl
      | ok k =>
        split
        · rfl
        · dsimp only
          split <;> rfl

/-- Witness for C8 at concrete inputs: a missing input raises
`NotFound`; an existing input with a failing tool raises the wrapped
`ConversionFailure`; a run producing zero files raises
`ConversionFailure`; a successful 1-segment run leaves records
unchanged. -/
theorem split_error_spec_witness :
    (runSplit ['a'] false (.ok 1) ⟨[], []⟩).1 = .error .notFound ∧
    (runSplit ['a'] true (.fail ['e']) ⟨[], []⟩).1 =
      .error (.conversionFailure (chunkingFailedMsg ++ ['e'])) ∧
    (runSplit ['a'] true (.ok 0) ⟨[], []⟩).1 =
      .error (.conversionFailure noChunksMsg) ∧
    (runSplit ['a'] true (.ok 1) ⟨[], [⟨0, 0, ['t'], none⟩]⟩).2.records =
      [⟨0, 0, ['t'], none⟩] := by
  refine ⟨?_, ?_, ?_, ?_⟩
  · exact (split_error_spec ['a'] (.ok 1) ⟨[], []⟩).1 false |>.mpr rfl
  · exact (split_error_spec ['a'] (.fail ['e']) ⟨[], []⟩).2.1 ['e'] rfl
  · exact (split_error_spec ['a'] (.ok 0) ⟨[], []⟩).2.2.1
  · exact (split_error_spec ['a'] (.ok 1) ⟨[], [⟨0, 0, ['t'], none⟩]⟩).2.2.2
      (sortStrs [segName ['a'] 0]) rfl

theorem digitChar_lt_digitChar : ∀ a, a < 10 → ∀ b, b < 10 →
    (((Nat.digitChar a).toNat < (Nat.digitChar b).toNat) ↔ a < b) := by
  decide

theorem lexLt_cons_eq (a b : Char) (as bs : Str) :
    lexLt (a :: as) (b :: bs) =
      if a.toNat < b.toNat then true
      else if b.toNat < a.toNat then false
      else lexLt as bs := by
  rw [lexLt]

theorem pad3_length {i : Nat} (hi : i < 1000) : (pad3 i).length = 3 := by
  rw [pad3, if_pos hi]
  rfl

theorem pad3_mono {i j : Nat} (hi : i < 1000) (hj : j < 1000) (hij : i < j) :
    lexLt (pad3 i) (pad3 j) = true := by
  have d1i : i / 100 < 10 := by omega
  have d1j : j / 100 < 10 := by omega
  have d2i : i / 10 % 10 < 10 := Nat.mod_lt _ (by norm_num)
  have d2j : j / 10 % 10 < 10 := Nat.mod_lt _ (by norm_num)
  have d3i : i % 10 < 10 := Nat.mod_lt _ (by norm_num)
  have d3j : j % 10 < 10 := Nat.mod_lt _ (by norm_num)
  rw [pad3, if_pos hi, pad3, if_pos hj, lexLt_cons_eq]
  rcases Nat.lt_trichotomy (i / 100) (j / 100) with h | h | h
  · rw [if_pos ((digitChar_lt_digitChar _ d1i _ d1j).mpr h)]
  · rw [h, if_neg (Nat.lt_irrefl _), if_neg (Nat.lt_irrefl _), lexLt_cons_eq]
    rcases Nat.lt_trichotomy (i / 10 % 10) (j / 10 % 10) with h2 | h2 | h2
    · rw [if_pos ((digitChar_lt_digitChar _ d2i _ d2j).mpr h2)]
    · rw [h2, if_neg (Nat.lt_irrefl _), if_neg (Nat.lt_irrefl _), lexLt_cons_eq]
      have h3 : i % 10 < j % 10 := by omega
      rw [if_pos ((digitChar_lt_digitChar _ d3i _ d3j).mpr h3)]
    · exfalso
      omega
  · exfalso
    omega

theorem lexLt_append_left : ∀ (p a b : Str), lexLt (p ++ a) (p ++ b) = lexLt a b
  | [], _, _ => rfl
  | c :: cs, a, b => by
    rw [List.cons_append, List.cons_append, lexLt_cons_eq,
      if_neg (Nat.lt_irrefl _), if_neg (Nat.lt_irrefl _)]
    exact lexLt_append_left cs a b

theorem lexLt_append_of_eq_length : ∀ (a b s tl : Str), a.length = b.length →
    lexLt a b = true → lexLt (a ++ s) (b ++ tl) = true
  | [], [], _, _ => by
    intro _ h
    simp [lexLt] at h
  | [], _ :: _, _, _ => by
    intro hl
    simp at hl
  | _ :: _, [], _, _ => by
    intro hl
    simp at hl
  | a :: as, b :: bs, s, tl => by
    intro hl h
    rw [lexLt_cons_eq] at h
    rw [List.cons_append, List.cons_append, lexLt_cons_eq]
    by_cases h1 : a.toNat < b.toNat
    · rw [if_pos h1]
    · rw [if_neg h1] at h ⊢
      by_cases h2 : b.toNat < a.toNat
      · rw [if_pos h2] at h
        exact absurd h (by simp)
      · rw [if_neg h2] at h ⊢
        exact lexLt_append_of_eq_length as bs s tl (by simpa using hl) h

theorem segName_mono (stem : Str) {i j : Nat} (hi : i < 1000) (hj : j < 1000)
    (hij : i < j) : lexLt (segName stem i) (segName stem j) = true := by
  have e1 : segName stem i = (stem ++ ['_']) ++ (pad3 i ++ ['.', 'w', 'a', 'v']) := by
    simp [segName]
  have e2 : segName stem j = (stem ++ ['_']) ++ (pad3 j ++ ['.', 'w', 'a', 'v']) := by
    simp [segName]
  rw [e1, e2, lexLt_append_left]
  exact lexLt_append_of_eq_length _ _ _ _
    (by rw [pad3_length hi, pad3_length hj]) (pad3_mono hi hj hij)

theorem lexLt_asymm : ∀ (a b : Str), lexLt a b = true → lexLt b a = false
  | [], [] => by simp [lexLt]
  | [], _ :: _ => fun _ => by simp [lexLt]
  | _ :: _, [] => by simp [lexLt]
  | a :: as, b :: bs => by
    intro h
    rw [lexLt_cons_eq] at h
    rw [lexLt_cons_eq]
    by_cases h1 : a.toNat < b.toNat
    · rw [if_neg (by omega : ¬ b.toNat < a.toNat), if_pos h1]
    · rw [if_neg h1] at h
      by_cases h2 : b.toNat < a.toNat
      · rw [if_pos h2] at h
        exact absurd h (by simp)
      · rw [if_neg h2] at h
        rw [if_neg h2, if_neg h1]
        exact lexLt_asymm as bs h

theorem sortStrs_of_pairwise : ∀ (l : List Str),
    List.Pairwise (fun a b => lexLt a b = true) l → sortStrs l = l
  | [] => fun _ => rfl
  | x :: xs => fun h => by
    obtain ⟨h1, h2⟩ := List.pairwise_cons.mp h
    show insertSorted x (sortStrs xs) = x :: xs
    rw [sortStrs_of_pairwise xs h2]
    cases xs with
    | nil => rfl
    | cons y ys =>
      have hyx : lexLt y x = false := lexLt_asymm x y (h1 y (by simp))
      rw [insertSorted, if_neg (by simp [hyx])]

theorem gen_pairwise (stem : Str) {k : Nat} (hk : k ≤ 1000) :
    List.Pairwise (fun a b => lexLt a b = true)
      ((List.range k).map (segName stem)) := by
  refine List.pairwise_map.mpr (List.Pairwise.imp_of_mem ?_ (List.pairwise_lt_range k))
  intro a b ha hb hab
  exact segName_mono stem (by have := List.mem_range.mp ha; omega)
    (by have := List.mem_range.mp hb; omega) hab

theorem gen_filter_self (stem : Str) (k : Nat) :
    ((List.range k).map (segName stem)).filter (matchesPattern stem) =
      (List.range k).map (segName stem) :=
  List.filter_eq_self.mpr (by
    intro a ha
    obtain ⟨i, _, rfl⟩ := List.mem_map.mp ha
    exact segName_matches stem i)

theorem runSplit_ok (stem : Str) (fs : List Str) (db : List ChunkRecord)
    (k : Nat) (hk0 : 0 < k) (hk : k ≤ 1000) :
    runSplit stem true (.ok k) ⟨fs, db⟩ =
      (.ok ((List.range k).map (segName stem)),
       ⟨fs.filter (fun f => !matchesPattern stem f) ++
          (List.range k).map (segName stem), db⟩) := by
  have hfil : (fs.filter (fun f => !matchesPattern stem f) ++
      (List.range k).map (segName stem)).filter (matchesPattern stem) =
      (List.range k).map (segName stem) := by
    rw [List.filter_append, filter_not_filter_self, gen_filter_self,
      List.nil_append]
  have hsort := sortStrs_of_pairwise _ (gen_pairwise stem hk)
  have hne : ((List.range k).map (segName stem)).isEmpty = false := by
    have : List.range k ≠ [] := by
      simp [List.range_eq_nil]
      omega
    simp [List.isEmpty_eq_false, this]
  rw [runSplit]
  simp only [Bool.not_true, Bool.false_eq_true, if_false]
  rw [hfil, hsort, hne]
  simp

/-- C7 counterexample: the `%03d` zero-padding stops aligning
lexicographic and chronological order beyond 1000 segments — segment
1000's file name sorts BEFORE segment 999's, so the returned sorted
list of a run producing more than 1000 segments is not chronological. -/
theorem split_pad_overflow_cex :
    lexLt (segName ['a'] 1000) (segName ['a'] 999) = true ∧
    sortStrs [segName ['a'] 999, segName ['a'] 1000] =
      [segName ['a'] 1000, segName ['a'] 999] := by
  decide

/-- C7 amended: for runs producing at most 1000 segments (so the
`%03d` pad keeps lexicographic order chronological), `split` deletes
every existing file matching the input's pattern, returns the
chronologically ordered segment list (pairwise lexicographically
increasing), and a second run on the same input and budget returns the
identical list and leaves the directory unchanged (idempotent re-run). -/
theorem split_rerun_spec (stem : Str) (fs : List Str) (db : List ChunkRecord)
    (k : Nat) (hk0 : 0 < k) (hk : k ≤ 1000) :
    runSplit stem true (.ok k) ⟨fs, db⟩ =
      (.ok ((List.range k).map (segName stem)),
       ⟨fs.filter (fun f => !matchesPattern stem f) ++
          (List.range k).map (segName stem), db⟩) ∧
    runSplit stem true (.ok k)
        ⟨fs.filter (fun f => !matchesPattern stem f) ++
           (List.range k).map (segName stem), db⟩ =
      (.ok ((List.range k).map (segName stem)),
       ⟨fs.filter (fun f => !matchesPattern stem f) ++
          (List.range k).map (segName stem), db⟩) ∧
    List.Pairwise (fun a b => lexLt a b = true)
      ((List.range k).map (segName stem)) := by
  have hstable : (fs.filter (fun f => !matchesPattern stem f) ++
      (List.range k).map (segName stem)).filter
        (fun f => !matchesPattern stem f) =
      fs.filter (fun f => !matchesPattern stem f) := by
    rw [List.filter_append, filter_not_idem]
    have hg : ((List.range k).map (segName stem)).filter
        (fun f => !matchesPattern stem f) = [] := by
      rw [List.filter_eq_nil_iff]
      intro a ha
      obtain ⟨i, _, rfl⟩ := List.mem_map.mp ha
      simp [segName_matches stem i]
    rw [hg, List.append_nil]
  refine ⟨runSplit_ok stem fs db k hk0 hk, ?_, gen_pairwise stem hk⟩
  have h2 := runSplit_ok stem
    (fs.filter (fun f => !matchesPattern stem f) ++
      (List.range k).map (segName stem)) db k hk0 hk
  rw [hstable] at h2
  exact h2

/-- Witness for C7's amended theorem: a 2-segment re-run over a
directory holding one stale segment file and one unrelated file. -/
theorem split_rerun_spec_witness :
    (0 < 2 ∧ 2 ≤ 1000) ∧
    (runSplit ['a'] true (.ok 2) ⟨[segName ['a'] 0, ['x']], []⟩ =
      (.ok ((List.range 2).map (segName ['a'])),
       ⟨[segName ['a'] 0, ['x']].filter (fun f => !matchesPattern ['a'] f) ++
          (List.range 2).map (segName ['a']), []⟩) ∧
     runSplit ['a'] true (.ok 2)
        ⟨[segName ['a'] 0, ['x']].filter (fun f => !matchesPattern ['a'] f) ++
           (List.range 2).map (segName ['a']), []⟩ =
      (.ok ((List.range 2).map (segName ['a'])),
       ⟨[segName ['a'] 0, ['x']].filter (fun f => !matchesPattern ['a'] f) ++
          (List.range 2).map (segName ['a']), []⟩) ∧
     List.Pairwise (fun a b => lexLt a b = true)
       ((List.range 2).map (segName ['a']))) :=
  ⟨⟨by decide, by decide⟩,
   split_rerun_spec ['a'] [segName ['a'] 0, ['x']] [] 2 (by decide) (by decide)⟩

theorem chunksOf_delete (tid : Nat) (db : List ChunkRecord) :
    chunksOf tid (delete_all_chunks tid db) = [] := by
  rw [chunksOf, delete_all_chunks, List.filter_filter]
  have : (fun c : ChunkRecord =>
      (c.transcriptionId == tid) && (c.transcriptionId != tid)) = fun _ => false := by
    funext c
    exact Bool.and_not_self _
  rw [this, List.filter_false]

theorem insertedClean_embedding (tid : Nat) (normText : Str) :
    ∀ c ∈ insertedClean tid normText, c.transcriptionId = tid ∧ c.embedding = none := by
  intro c hc
  obtain ⟨r, hr, rfl⟩ := List.mem_map.mp hc
  obtain ⟨p, _, rfl⟩ := List.mem_map.mp hr
  exact ⟨rfl, rfl⟩

theorem chunksOf_after_insert (tid : Nat) (normText : Str) (db : List ChunkRecord) :
    chunksOf tid (save_chunks tid (cleanChunkRows normText)
      (delete_all_chunks tid db)) = insertedClean tid normText := by
  rw [save_chunks, chunksOf, List.filter_append]
  have h1 : (delete_all_chunks tid db).filter
      (fun c => c.transcriptionId == tid) = [] := chunksOf_delete tid db
  have h2 : ((cleanChunkRows normText).map
      (fun r => (⟨tid, r.1, r.2.1, r.2.2⟩ : ChunkRecord))).filter
      (fun c => c.transcriptionId == tid) =
      (cleanChunkRows normText).map (fun r => ⟨tid, r.1, r.2.1, r.2.2⟩) := by
    rw [List.filter_eq_self]
    intro c hc
    obtain ⟨r, _, rfl⟩ := List.mem_map.mp hc
    simp
  rw [h1, h2, List.nil_append]
  rfl

/-- C1: during the chunk-store swap every existing chunk of the
transcription is deleted before any clean chunk is inserted (the state
after the delete holds no chunk of the transcription), at every
observation point of the swap the transcription's chunk set is either
entirely raw (any property `Raw` holding of the pre-swap chunks) or
entirely clean (a member of the inserted clean set), and every inserted
clean chunk carries a null embedding placeholder. -/
theorem chunk_swap_spec (Raw : ChunkRecord → Prop) (tid : Nat) (normText : Str)
    (db : List ChunkRecord) (hraw : ∀ c ∈ chunksOf tid db, Raw c) :
    chunksOf tid (delete_all_chunks tid db) = [] ∧
    swapTrace tid normText db =
      [db, delete_all_chunks tid db,
       delete_all_chunks tid db ++ insertedClean tid normText] ∧
    chunksOf tid (save_chunks tid (cleanChunkRows normText)
      (delete_all_chunks tid db)) = insertedClean tid normText ∧
    (∀ c ∈ insertedClean tid normText, c.embedding = none) ∧
    (∀ s ∈ swapTrace tid normText db,
      (∀ c ∈ chunksOf tid s, Raw c) ∨
      (∀ c ∈ chunksOf tid s, c ∈ insertedClean tid normText)) := by
  refine ⟨chunksOf_delete tid db, rfl, chunksOf_after_insert tid normText db,
    fun c hc => (insertedClean_embedding tid normText c hc).2, ?_⟩
  intro s hs
  rw [swapTrace] at hs
  simp only [List.mem_cons, List.not_mem_nil, or_false] at hs
  rcases hs with rfl | rfl | rfl
  · exact Or.inl hraw
  · exact Or.inl (by
      intro c hc
      rw [chunksOf_delete] at hc
      cases hc)
  · exact Or.inr (by
      intro c hc
      rw [chunksOf_after_insert] at hc
      exact hc)

/-- Witness for C1 at a concrete store: one raw chunk of transcription
5 is swapped for the clean split of the text `"hi"`. -/
theorem chunk_swap_spec_witness :
    (∀ c ∈ chunksOf 5 [(⟨5, 0, ['r'], none⟩ : ChunkRecord)], c.textContent = ['r']) ∧
    (chunksOf 5 (delete_all_chunks 5 [(⟨5, 0, ['r'], none⟩ : ChunkRecord)]) = [] ∧
     swapTrace 5 ['h', 'i'] [(⟨5, 0, ['r'], none⟩ : ChunkRecord)] =
       [[(⟨5, 0, ['r'], none⟩ : ChunkRecord)],
        delete_all_chunks 5 [(⟨5, 0, ['r'], none⟩ : ChunkRecord)],
        delete_all_chunks 5 [(⟨5, 0, ['r'], none⟩ : ChunkRecord)] ++
          insertedClean 5 ['h', 'i']] ∧
     chunksOf 5 (save_chunks 5 (cleanChunkRows ['h', 'i'])
       (delete_all_chunks 5 [(⟨5, 0, ['r'], none⟩ : ChunkRecord)])) =
       insertedClean 5 ['h', 'i'] ∧
     (∀ c ∈ insertedClean 5 ['h', 'i'], c.embedding = none) ∧
     (∀ s ∈ swapTrace 5 ['h', 'i'] [(⟨5, 0, ['r'], none⟩ : ChunkRecord)],
       (∀ c ∈ chunksOf 5 s, c.textContent = ['r']) ∨
       (∀ c ∈ chunksOf 5 s, c ∈ insertedClean 5 ['h', 'i']))) :=
  ⟨by decide, chunk_swap_spec (fun c => c.textContent = ['r']) 5 ['h', 'i']
     [⟨5, 0, ['r'], none⟩] (by decide)⟩

theorem transcribeLoopAux_eq (tid : Nat) (f : AudioSeg → Str) :
    ∀ (segs : List AudioSeg) (i : Nat) (db : List ChunkRecord),
      transcribeLoopAux tid f i segs db = db ++ rawChunksFrom tid f i segs
  | [], i, db => by simp [transcribeLoopAux, rawChunksFrom]
  | seg :: rest, i, db => by
    rw [transcribeLoopAux, rawChunksFrom]
    by_cases h : seg.sizeBytes < 1024 * 5
    · rw [if_pos h, if_pos h]
      exact transcribeLoopAux_eq tid f rest (i + 1) db
    · rw [if_neg h, if_neg h, transcribeLoopAux_eq tid f rest (i + 1),
        create_chunk]
      simp

theorem rawChunksFrom_fields (tid : Nat) (f : AudioSeg → Str) :
    ∀ (segs : List AudioSeg) (i : Nat), ∀ c ∈ rawChunksFrom tid f i segs,
      c.transcriptionId = tid ∧ c.embedding = none ∧ i ≤ c.chunkIndex
  | [], _ => by simp [rawChunksFrom]
  | seg :: rest, i => by
    intro c hc
    rw [rawChunksFrom] at hc
    by_cases h : seg.sizeBytes < 1024 * 5
    · rw [if_pos h] at hc
      have := rawChunksFrom_fields tid f rest (i + 1) c hc
      exact ⟨this.1, this.2.1, by omega⟩
    · rw [if_neg h] at hc
      rcases List.mem_cons.mp hc with rfl | hc
      · exact ⟨rfl, rfl, Nat.le_refl i⟩
      · have := rawChunksFrom_fields tid f rest (i + 1) c hc
        exact ⟨this.1, this.2.1, by omega⟩

theorem rawChunksFrom_pairwise (tid : Nat) (f : AudioSeg → Str) :
    ∀ (segs : List AudioSeg) (i : Nat),
      List.Pairwise (· < ·)
        ((rawChunksFrom tid f i segs).map ChunkRecord.chunkIndex)
  | [], _ => by simp [rawChunksFrom]
  | seg :: rest, i => by
    rw [rawChunksFrom]
    by_cases h : seg.sizeBytes < 1024 * 5
    · rw [if_pos h]
      exact rawChunksFrom_pairwise tid f rest (i + 1)
    · rw [if_neg h, List.map_cons]
      refine List.pairwise_cons.mpr ⟨?_, rawChunksFrom_pairwise tid f rest (i + 1)⟩
      intro b hb
      obtain ⟨c, hc, rfl⟩ := List.mem_map.mp hb
      have := (rawChunksFrom_fields tid f rest (i + 1) c hc).2.2
      show i < c.chunkIndex
      omega

theorem rawChunksFrom_texts (tid : Nat) (f : AudioSeg → Str) :
    ∀ (segs : List AudioSeg) (i : Nat),
      (rawChunksFrom tid f i segs).map ChunkRecord.textContent =
        (segs.filter (fun s => !decide (s.sizeBytes < 1024 * 5))).map f
  | [], _ => by simp [rawChunksFrom]
  | seg :: rest, i => by
    rw [rawChunksFrom, List.filter_cons]
    by_cases h : seg.sizeBytes < 1024 * 5
    · rw [if_pos h]
      have ih := rawChunksFrom_texts tid f rest (i + 1)
      simpa [h] using ih
    · rw [if_neg h]
      have ih := rawChunksFrom_texts tid f rest (i + 1)
      simp [h, ih]

theorem rawChunksFrom_lookup (tid : Nat) (f : AudioSeg → Str) :
    ∀ (segs : List AudioSeg) (i : Nat), ∀ c ∈ rawChunksFrom tid f i segs,
      ∃ seg, segs[c.chunkIndex - i]? = some seg ∧
        ¬ seg.sizeBytes < 1024 * 5 ∧ c.textContent = f seg
  | [], _ => by simp [rawChunksFrom]
  | seg :: rest, i => by
    intro c hc
    rw [rawChunksFrom] at hc
    by_cases h : seg.sizeBytes < 1024 * 5
    · rw [if_pos h] at hc
      obtain ⟨s, hs, hbig, htext⟩ := rawChunksFrom_lookup tid f rest (i + 1) c hc
      have hge : i + 1 ≤ c.chunkIndex :=
        (rawChunksFrom_fields tid f rest (i + 1) c hc).2.2
      refine ⟨s, ?_, hbig, htext⟩
      have : c.chunkIndex - i = (c.chunkIndex - (i + 1)) + 1 := by omega
      rw [this, List.getElem?_cons_succ]
      exact hs
    · rw [if_neg h] at hc
      rcases List.mem_cons.mp hc with rfl | hc
      · exact ⟨seg, by simp, h, rfl⟩
      · obtain ⟨s, hs, hbig, htext⟩ := rawChunksFrom_lookup tid f rest (i + 1) c hc
        have hge : i + 1 ≤ c.chunkIndex :=
          (rawChunksFrom_fields tid f rest (i + 1) c hc).2.2
        refine ⟨s, ?_, hbig, htext⟩
        have : c.chunkIndex - i = (c.chunkIndex - (i + 1)) + 1 := by omega
        rw [this, List.getElem?_cons_succ]
        exact hs

/-- C2: the transcription loop appends, under the single pre-created
shell transcription `tid`, one chunk per segment at least `1024*5`
bytes (smaller segments are skipped), whose index is the segment's
chronological position; the stored indices are strictly increasing, and
the chunk texts read in increasing index order are exactly the
transcripts of the kept segments in chronological order. -/
theorem transcribe_loop_spec (tid : Nat) (transcribe : AudioSeg → Str)
    (segs : List AudioSeg) (db : List ChunkRecord) :
    transcribeLoop tid transcribe segs db =
      db ++ rawChunksFrom tid transcribe 0 segs ∧
    (∀ c ∈ rawChunksFrom tid transcribe 0 segs,
      c.transcriptionId = tid ∧ c.embedding = none) ∧
    List.Pairwise (· < ·)
      ((rawChunksFrom tid transcribe 0 segs).map ChunkRecord.chunkIndex) ∧
    (rawChunksFrom tid transcribe 0 segs).map ChunkRecord.textContent =
      (segs.filter (fun s => !decide (s.sizeBytes < 1024 * 5))).map transcribe ∧
    (∀ c ∈ rawChunksFrom tid transcribe 0 segs,
      ∃ seg, segs[c.chunkIndex]? = some seg ∧
        ¬ seg.sizeBytes < 1024 * 5 ∧ c.textContent = transcribe seg) := by
  refine ⟨transcribeLoopAux_eq tid transcribe segs 0 db,
    fun c hc => ⟨(rawChunksFrom_fields tid transcribe segs 0 c hc).1,
      (rawChunksFrom_fields tid transcribe segs 0 c hc).2.1⟩,
    rawChunksFrom_pairwise tid transcribe segs 0,
    rawChunksFrom_texts tid transcribe segs 0, ?_⟩
  intro c hc
  have := rawChunksFrom_lookup tid transcribe segs 0 c hc
  simpa using this

end SpeachText
